import Mathlib

/-!
Formal model of the Cribbage engine (game.py, server.py).

Cards are translated from `game.py`: ranks A..K with show values
(A=1, face cards 10) and run-order numbers 1..13. The Python code stores
played pegging cards as display strings `rank ++ suit` and recovers the
rank with `card_str[:-1]`; since every suit is a single character this
round-trips exactly, so the model keeps the cards themselves in
`peggingCards` and reads their ranks directly.
-/

namespace Cribbage

/-- Suits `['H', 'D', 'C', 'S']` from game.py. -/
inductive Suit where
  | H | D | C | S
deriving DecidableEq, Repr, Inhabited

/-- Ranks `['A', '2', ..., '10', 'J', 'Q', 'K']` from game.py. -/
inductive Rank where
  | A | n2 | n3 | n4 | n5 | n6 | n7 | n8 | n9 | n10 | J | Q | K
deriving DecidableEq, Repr, Inhabited

/-- `VALUES` in game.py: A=1, 2..9 face, 10/J/Q/K = 10. -/
def Rank.value : Rank → Nat
  | .A => 1 | .n2 => 2 | .n3 => 3 | .n4 => 4 | .n5 => 5 | .n6 => 6
  | .n7 => 7 | .n8 => 8 | .n9 => 9 | .n10 => 10 | .J => 10 | .Q => 10 | .K => 10

/-- `Game.rank_to_num` in game.py: A=1 .. K=13, kept in rank order. -/
def Rank.toNum : Rank → Nat
  | .A => 1 | .n2 => 2 | .n3 => 3 | .n4 => 4 | .n5 => 5 | .n6 => 6
  | .n7 => 7 | .n8 => 8 | .n9 => 9 | .n10 => 10 | .J => 11 | .Q => 12 | .K => 13

/-- `Card` in game.py: a suit and a rank; `value` is derived from the rank. -/
structure Card where
  suit : Suit
  rank : Rank
deriving DecidableEq, Repr, Inhabited

/-- `Game.get_card_value`: the pegging value of a card. -/
def Card.value (c : Card) : Nat := c.rank.value

/-- `Game.count_fifteens`: every subset of the card values summing to 15
scores 2.  Python enumerates `combinations(values, r)` for r = 1..n, which
visits each index subset exactly once; `List.sublists` does the same (the
empty sublist never sums to 15, so including it changes nothing). -/
def countFifteens (cards : List Card) : Nat :=
  2 * (((cards.map Card.value).sublists.filter (fun s => s.sum = 15)).length)

/-- `Game.count_pairs`: each rank held `q ≥ 2` times scores `2·C(q,2)`. -/
def countPairs (cards : List Card) : Nat :=
  let ranks := cards.map Card.rank
  (ranks.dedup.map (fun r =>
    let q := ranks.count r
    if 2 ≤ q then q * (q - 1) / 2 * 2 else 0)).sum

/-- Split an ascending list of distinct numbers into its maximal stretches of
consecutive values (the `segments` loop of `Game.count_runs`). -/
def consecSegments : List Nat → List (List Nat)
  | [] => []
  | n :: rest =>
    match consecSegments rest with
    | [] => [[n]]
    | seg :: segs =>
      match seg with
      | [] => [n] :: segs
      | m :: _ => if m = n + 1 then (n :: seg) :: segs else [n] :: seg :: segs

/-- `Game.count_runs`: sort the distinct rank numbers, find maximal
consecutive segments of length ≥ 3, keep only those of maximum length, and
score `length × Π multiplicity` for each. -/
def countRuns (cards : List Card) : Nat :=
  if cards.length < 3 then 0
  else
    let nums := cards.map (fun c => c.rank.toNum)
    let sortedNums := (nums.dedup).insertionSort (· ≤ ·)
    let segments := (consecSegments sortedNums).filter (fun s => 3 ≤ s.length)
    if segments.isEmpty then 0
    else
      let maxLength := (segments.map List.length).foldr max 0
      (segments.map (fun seg =>
        if seg.length = maxLength then
          seg.length * (seg.map (fun n => nums.count n)).prod
        else 0)).sum

/-- `Game.score_show_cards`: fifteens + pairs + runs (no flush, no nobs). -/
def scoreShowCards (cards : List Card) : Nat :=
  if cards.isEmpty then 0
  else countFifteens cards + countPairs cards + countRuns cards

/-- The trailing same-rank streak of `Game.calculate_pegging_points`:
`count = 1` for the last card plus every card before it (walking backwards)
sharing the last card's rank, stopping at the first mismatch. -/
def trailingRankCount (cards : List Card) : Nat :=
  match cards.getLast? with
  | none => 0
  | some last =>
    1 + ((cards.dropLast.reverse).takeWhile (fun c => c.rank = last.rank)).length

/-- One candidate run window of `Game.calculate_pegging_points`: the last
`len` played cards, their rank numbers sorted; accepted when they are
`len` distinct values forming `range(nums[0], nums[0] + len)`. -/
def windowOk (cards : List Card) (len : Nat) : Bool :=
  let tail := cards.drop (cards.length - len)
  let nums := (tail.map (fun c => c.rank.toNum)).insertionSort (· ≤ ·)
  if nums.dedup.length ≠ len then false
  else
    match nums with
    | [] => false
    | n0 :: _ => nums = List.range' n0 len

/-- The run loop of `Game.calculate_pegging_points`: try window lengths from
`len(sequence)` down to 3 and stop at the first accepted window. -/
def runScan (cards : List Card) : Nat → Nat
  | 0 => 0
  | 1 => 0
  | 2 => 0
  | n + 3 => if windowOk cards (n + 3) then n + 3 else runScan cards (n + 2)

/-- `Game.calculate_pegging_points`, reading the freshly appended sequence and
updated total: +2 on 15/31, `2·(count−1)` for a trailing rank streak of
`count ≥ 2`, plus the first (longest) accepted run window. -/
def calculatePeggingPoints (cards : List Card) (total : Nat) : Nat :=
  let fifteenPts := if total = 15 ∨ total = 31 then 2 else 0
  let pairPts :=
    if 2 ≤ cards.length then
      let count := trailingRankCount cards
      if 2 ≤ count then 2 * (count - 1) else 0
    else 0
  fifteenPts + pairPts + runScan cards cards.length

/-- `Player` in game.py: stable id, ordered hand, running score. -/
structure Player where
  id : Nat
  hand : List Card
  score : Nat
deriving DecidableEq, Repr, Inhabited

/-- `Game` in game.py.  `players_passed` (a Python set of ids) becomes a
`Finset Nat`; `pegging_cards` holds the played cards themselves (the Python
list of display strings determines exactly the same ranks); `show_hands`
(a dict from player index to hand) becomes a list indexed by position. -/
structure Game where
  numPlayers : Nat
  players : List Player
  deck : List Card
  crib : List Card
  starter : Option Card
  peggingTotal : Nat
  peggingCards : List Card
  lastPlayedPlayer : Option Nat
  playersPassed : Finset Nat
  lastCardBonusAwarded : Bool
  showHands : List (List Card)
  dealer : Nat
deriving DecidableEq

/-- `Deck.deal(n)`: pop `n` cards off the end of the deck (last card first).
Callers keep `n` within the deck size; Python would raise otherwise. -/
def dealFrom (deck : List Card) (n : Nat) : List Card × List Card :=
  ((deck.drop (deck.length - n)).reverse, deck.take (deck.length - n))

/-- One iteration of the `Game.deal_cards` loop: assign the next player a
fresh hand dealt off the running deck. -/
def dealStep (per : Nat) (acc : List Player × List Card) (pl : Player) :
    List Player × List Card :=
  let r := dealFrom acc.2 per
  (acc.1 ++ [{ pl with hand := r.1 }], r.2)

/-- `Game.deal_cards`: 6 cards each with exactly two players, else 5,
dealt to the players in seating order; the bonus flag is cleared. -/
def Game.dealCards (g : Game) : Game :=
  let per := if g.numPlayers = 2 then 6 else 5
  let res := g.players.foldl (dealStep per) ([], g.deck)
  { g with players := res.1, deck := res.2, lastCardBonusAwarded := false }

/-- `Game.set_starter`: draw one card off the end of the deck.  An empty
deck (where Python would raise) leaves the state unchanged; the round flow
never reaches it. -/
def Game.setStarter (g : Game) : Game :=
  match g.deck.getLast? with
  | some c => { g with starter := some c, deck := g.deck.dropLast }
  | none => g

/-- Python `sorted(l, reverse=True)` on a list of naturals. -/
def sortDescend (l : List Nat) : List Nat :=
  (l.insertionSort (· ≤ ·)).reverse

/-- `Player.discard`: read the cards at the requested indices from the
original hand, then delete them highest index first (so earlier deletions
do not shift later ones).  Out-of-range indices (a Python IndexError) read
a default card; callers pass valid indices. -/
def Player.discard (pl : Player) (indices : List Nat) : List Card × Player :=
  let idxs := sortDescend indices
  let discarded := idxs.map (fun i => pl.hand.getD i default)
  let newHand := idxs.foldl (fun h i => h.eraseIdx i) pl.hand
  (discarded, { pl with hand := newHand })

/-- `Game.capture_show_hands`: snapshot every hand for the show phase. -/
def Game.captureShowHands (g : Game) : Game :=
  { g with showHands := g.players.map Player.hand }

/-- One iteration of the `Game.collect_discards` loop: move the discarded
cards of one player into the crib.  An unseated id (a Python IndexError)
is a no-op; the server passes seated ids. -/
def applyDiscardEntry (g : Game) (e : Nat × List Nat) : Game :=
  match g.players.get? e.1 with
  | none => g
  | some pl =>
    let (disc, pl') := pl.discard e.2
    { g with players := g.players.set e.1 pl', crib := g.crib ++ disc }

/-- `Game.collect_discards`: fold the discard dictionary into the crib,
then capture the show hands. -/
def Game.collectDiscards (g : Game) (ds : List (Nat × List Nat)) : Game :=
  (ds.foldl applyDiscardEntry g).captureShowHands

/-- `Game.can_play_card`: the index is in range and the card fits under 31. -/
def Game.canPlayCard (g : Game) (pid idx : Nat) : Bool :=
  match g.players.get? pid with
  | none => false
  | some pl =>
    match pl.hand.get? idx with
    | none => false
    | some c => g.peggingTotal + c.value ≤ 31

/-- `Game.has_playable_card`. -/
def Game.hasPlayableCard (g : Game) (pid : Nat) : Bool :=
  match g.players.get? pid with
  | none => false
  | some pl => (List.range pl.hand.length).any (fun idx => g.canPlayCard pid idx)

/-- `Game.is_pegging_over` / the `all(len(p.hand) == 0 ...)` check. -/
def Game.allHandsEmpty (g : Game) : Bool :=
  g.players.all (fun p => p.hand.isEmpty)

/-- `Game.play_card`: pop the card, extend total and sequence, score the
play, add the last-card bonus when this play empties every hand with a
total other than 31 and the bonus is still unawarded, record the player,
clear the pass set.  `none` on an invalid player or index (Python raises). -/
def Game.playCard (g : Game) (pid idx : Nat) : Option (Card × Nat × Game) :=
  match g.players.get? pid with
  | none => none
  | some pl =>
    match pl.hand.get? idx with
    | none => none
    | some card =>
      let players' := g.players.set pid { pl with hand := pl.hand.eraseIdx idx }
      let total' := g.peggingTotal + card.value
      let cards' := g.peggingCards ++ [card]
      let basePoints := calculatePeggingPoints cards' total'
      let wasLastCard := players'.all (fun p => p.hand.isEmpty)
      let bonus := wasLastCard && (total' != 31) && !g.lastCardBonusAwarded
      some (card, basePoints + (if bonus then 1 else 0),
        { g with players := players',
                 peggingTotal := total',
                 peggingCards := cards',
                 lastPlayedPlayer := some pid,
                 playersPassed := ∅,
                 lastCardBonusAwarded := if bonus then true else g.lastCardBonusAwarded })

/-- The `active_players` set of `Game.go`: indices of players still
holding cards. -/
def Game.activePlayers (g : Game) : Finset Nat :=
  ((List.range g.players.length).filter
    (fun i => !((g.players.getD i default).hand.isEmpty))).toFinset

/-- The tuple returned by `Game.go`, with the field names under which
`CribbageServer.handle_go` unpacks it. -/
structure GoOutcome where
  scorer : Option Nat
  pointsAwarded : Bool
  roundOver : Bool
  showPhase : Bool
deriving DecidableEq, Repr

/-- `Game.go`: record the pass; with no active player, signal completion;
with no card yet played, record the pass only; once every active player
has passed, reset the sub-round and name `last_played_player` the scorer. -/
def Game.go (g : Game) (pid : Nat) : GoOutcome × Game :=
  let passed := insert pid g.playersPassed
  let active := g.activePlayers
  if active = ∅ then
    (⟨none, true, true, false⟩, { g with playersPassed := ∅ })
  else if g.lastPlayedPlayer = none then
    (⟨none, false, false, false⟩, { g with playersPassed := passed })
  else if active ⊆ passed then
    let awardLastCard := (g.peggingTotal != 31) && g.allHandsEmpty
    (⟨g.lastPlayedPlayer, true, g.allHandsEmpty, awardLastCard⟩,
     { g with peggingTotal := 0, peggingCards := [], playersPassed := ∅,
              lastCardBonusAwarded := false })
  else
    (⟨none, false, false, false⟩, { g with playersPassed := passed })

/-- `self.game.players[pid].score += pts` on a seated player. -/
def Game.addScore (g : Game) (pid : Nat) (pts : Nat) : Game :=
  match g.players.get? pid with
  | none => g
  | some pl => { g with players := g.players.set pid { pl with score := pl.score + pts } }

/-- The state effect of `CribbageServer.handle_go` (server.py): unpack go's
tuple as (scorer, points_awarded, round_over, show_phase); when a scorer is
named and `points_awarded > 0` — the value is the Python boolean `True`,
which arithmetic treats as 1 — add that 1 to the scorer's total. -/
def handleGoScore (g : Game) (pid : Nat) : GoOutcome × Game :=
  let res := g.go pid
  match res.1.scorer with
  | some s => if res.1.pointsAwarded then (res.1, res.2.addScore s 1) else res
  | none => res

/-- `CribbageServer.get_winner`: among players at 121 or more, find the top
score; the dealer wins if the dealer's id is among those top scorers, else
the smallest such id wins (`sorted(leaders)[0]`). -/
def getWinner (players : List Player) (dealer : Nat) : Option Nat :=
  let finalists := players.filter (fun p => 121 ≤ p.score)
  if finalists.isEmpty then none
  else
    let maxScore := (finalists.map Player.score).foldr max 0
    let leaders := (finalists.filter (fun p => p.score = maxScore)).map Player.id
    if dealer ∈ leaders then some dealer
    else (leaders.insertionSort (· ≤ ·)).head?

/-- The messages of server.py that the claims mention: the discard
acknowledgement, the per-player deal message (which carries the starter),
the post-discard hand updates and the starter broadcast. -/
inductive SMessage where
  | ack (pid : Nat) (note : String)
  | deal (pid : Nat) (hand : List Card) (starter : Option Card)
  | handUpdate (pid : Nat) (hand : List Card)
  | starterRevealed (starter : Option Card)
deriving DecidableEq, Repr

/-- The round-level server fields the claims touch: seated connection ids,
the game, and the `self.discards` dictionary (kept as an association list
in Python dict insertion order). -/
structure SState where
  connections : List Nat
  game : Game
  discards : List (Nat × List Nat)
deriving DecidableEq

/-- Python `d[k] = v` on the discard dict: replace in place when the key
exists, append otherwise. -/
def dictInsert (d : List (Nat × List Nat)) (k : Nat) (v : List Nat) :
    List (Nat × List Nat) :=
  if d.any (fun e => e.1 == k) then
    d.map (fun e => if e.1 = k then (k, v) else e)
  else d ++ [(k, v)]

/-- The hand of seated player `p` as server.py reads it. -/
def handOf (g : Game) (p : Nat) : List Card :=
  (g.players.getD p default).hand

/-- `CribbageServer.handle_discard`: store the indices under the player's
key (silently overwriting any previous entry), acknowledge, and — once the
dictionary holds one entry per connection — collect the discards, clear the
dictionary, send hand updates, broadcast the starter and re-capture the
show hands. -/
def handleDiscard (s : SState) (pid : Nat) (indices : List Nat) :
    SState × List SMessage :=
  let discards' := dictInsert s.discards pid indices
  let ackMsg := SMessage.ack pid "Discard received"
  if discards'.length = s.connections.length then
    let g' := (s.game.collectDiscards discards').captureShowHands
    ({ s with game := g', discards := [] },
     ackMsg :: (s.connections.map (fun p => SMessage.handUpdate p (handOf g' p))
       ++ [SMessage.starterRevealed g'.starter]))
  else
    ({ s with discards := discards' }, [ackMsg])

/-- Modelled from the spec: `Game.prepare_round` is invoked by
`CribbageServer.start_round` but is not defined in game.py; per §4.4
(`begin_round`) it resets the per-round fields (crib empty, starter unset,
pegging fields cleared), sets the dealer, and installs a fresh shuffled
deck.  The fresh deck is a parameter standing for the shuffle. -/
def Game.prepareRound (g : Game) (dealer : Option Nat) (freshDeck : List Card) :
    Game :=
  { g with crib := [], starter := none, peggingTotal := 0, peggingCards := [],
           lastPlayedPlayer := none, playersPassed := ∅,
           lastCardBonusAwarded := false, showHands := [],
           deck := freshDeck, dealer := dealer.getD g.dealer }

/-- `CribbageServer.start_round`, in statement order: prepare the round,
clear the discard dictionary, deal, draw the starter, then send each
seated player a deal message carrying the starter.  (The round_started /
turn / score broadcasts carry no cards and are omitted.) -/
def startRound (s : SState) (dealer : Option Nat) (freshDeck : List Card) :
    SState × List SMessage :=
  let g3 := ((s.game.prepareRound dealer freshDeck).dealCards).setStarter
  ({ s with game := g3, discards := [] },
   s.connections.map (fun p => SMessage.deal p (handOf g3 p) g3.starter))

/-- The card-conservation quantity of the spec's §3 invariant:
`Σ|hand_i| + |crib| + (1 if starter drawn) + |remaining deck|`. -/
def Game.cardSum (g : Game) : Nat :=
  (g.players.map (fun p => p.hand.length)).sum + g.crib.length
    + (if g.starter.isSome then 1 else 0) + g.deck.length

/-!  Spec-side restatement of the pegging scorer (§4.1
`score_pegging_play`), written from the spec's words for the refinement
claim and compared with `calculatePeggingPoints` below.  -/

/-- Spec wording: "count consecutive cards from the end of the sequence
sharing one rank (streak m)". -/
def specTrailingStreak (cards : List Card) : Nat :=
  match cards.getLast? with
  | none => 0
  | some last => (cards.reverse.takeWhile (fun c => c.rank = last.rank)).length

/-- Spec wording for one run window: the last `len` cards' rank values are
distinct and form a contiguous integer range of that length — i.e. they are
a permutation of `a, a+1, …, a+len−1` for some starting value `a`
(necessarily one of the values). -/
def specWindowGood (cards : List Card) (len : Nat) : Bool :=
  let vals := (cards.drop (cards.length - len)).map (fun c => c.rank.toNum)
  vals.any (fun a => decide (vals.Perm (List.range' a len)))

/-- Spec wording: "take the first (longest) window" with length between 3
and the sequence length — the largest qualifying window length, 0 if none. -/
def specRunPoints (cards : List Card) : Nat :=
  (((List.range (cards.length + 1)).filter
      (fun L => decide (3 ≤ L) && specWindowGood cards L)).foldr max 0)

/-- §4.1 `score_pegging_play` as the spec words it: +2 on a total of 15 or
31, `2·(m−1)` for a trailing same-rank streak of `m ≥ 2`, plus the longest
qualifying run window; no duplicate-multiplicity multiplier. -/
def specPeggingScore (cards : List Card) (total : Nat) : Nat :=
  (if total = 15 ∨ total = 31 then 2 else 0)
    + (let m := specTrailingStreak cards
       if 2 ≤ m then 2 * (m - 1) else 0)
    + specRunPoints cards

/-- Spec-side reading of the amended win rule: `i` is the id of a player at
121 or more whose score no player at 121 or more exceeds. -/
def isTopFinalistId (players : List Player) (i : Nat) : Prop :=
  ∃ p ∈ players, p.id = i ∧ 121 ≤ p.score ∧
    ∀ q ∈ players, 121 ≤ q.score → q.score ≤ p.score

/-! Concrete fixtures used by the claim theorems. -/

/-- The canonical maximal hand of §8: 5♥ 5♦ 5♣ J♠ with starter 5♠. -/
def maxHand : List Card :=
  [⟨Suit.H, Rank.n5⟩, ⟨Suit.D, Rank.n5⟩, ⟨Suit.C, Rank.n5⟩,
   ⟨Suit.S, Rank.J⟩, ⟨Suit.S, Rank.n5⟩]

/-- The run fixture of §8: 3♥ 3♦ 4♣ 5♠. -/
def runHand : List Card :=
  [⟨Suit.H, Rank.n3⟩, ⟨Suit.D, Rank.n3⟩, ⟨Suit.C, Rank.n4⟩, ⟨Suit.S, Rank.n5⟩]

/-- A pegging state at total 31: player 0 (scores 10) played the last card
and emptied their hand; player 1 (score 5) still holds a king and must go. -/
def goGame31 : Game :=
  ⟨2, [⟨0, [], 10⟩, ⟨1, [⟨Suit.H, Rank.K⟩], 5⟩], [], [], none, 31,
   [⟨Suit.S, Rank.K⟩, ⟨Suit.S, Rank.Q⟩, ⟨Suit.S, Rank.J⟩, ⟨Suit.S, Rank.A⟩],
   some 0, ∅, false, [], 0⟩

/-- A fresh sub-round: nobody has played yet, player 0 holds the only card. -/
def passGame : Game :=
  ⟨2, [⟨0, [⟨Suit.H, Rank.K⟩], 0⟩, ⟨1, [], 0⟩], [], [], none, 0, [],
   none, ∅, false, [], 0⟩

/-- A two-player game before any round activity. -/
def idleGame : Game :=
  ⟨2, [⟨0, [], 0⟩, ⟨1, [], 0⟩], [], [], none, 0, [], none, ∅, false, [], 0⟩

/-- Server state in which player 0 has already discarded this round. -/
def discardState : SState := ⟨[0, 1], idleGame, [(0, [0, 1])]⟩

/-- The 52-card deck in game.py construction order (one possible shuffle). -/
def fullDeck : List Card :=
  (([Suit.H, Suit.D, Suit.C, Suit.S]).map (fun s =>
    ([Rank.A, Rank.n2, Rank.n3, Rank.n4, Rank.n5, Rank.n6, Rank.n7, Rank.n8,
      Rank.n9, Rank.n10, Rank.J, Rank.Q, Rank.K]).map (fun r => (⟨s, r⟩ : Card)))).flatten

/-- `idleGame` holding the full deck, as at the start of a two-player round. -/
def freshGame : Game :=
  ⟨2, [⟨0, [], 0⟩, ⟨1, [], 0⟩], fullDeck, [], none, 0, [], none, ∅, false, [], 0⟩

/-! Claim theorems. -/

/-- Claim C1, counterexample: with scores [125, 121] and dealer 1, the
dealer sits at 121 ≥ 121 yet `get_winner` returns player 0, not the dealer
— the dealer does not win outright when another player's score is higher. -/
theorem getWinner_not_dealer_outright :
    (∃ p ∈ ([⟨0, [], 125⟩, ⟨1, [], 121⟩] : List Player), p.id = 1 ∧ 121 ≤ p.score)
      ∧ getWinner [⟨0, [], 125⟩, ⟨1, [], 121⟩] 1 ≠ some 1 := by
  decide

/-- Claim C3, counterexample: `score_show_cards` on 5♥ 5♦ 5♣ J♠ + 5♠ does
not return 29 — the engine scores no nobs. -/
theorem scoreShow_maxHand_ne_29 : scoreShowCards maxHand ≠ 29 := by decide

/-- Claim C3, amended: `score_show_cards` on 5♥ 5♦ 5♣ J♠ + 5♠ returns
exactly 28 (16 from fifteens, 12 from the four fives, no runs, no nobs). -/
theorem scoreShow_maxHand_eq_28 : scoreShowCards maxHand = 28 := by decide

/-- Claim C4, counterexample: `count_runs` on 3♥ 3♦ 4♣ 5♠ does not
return 8. -/
theorem countRuns_pairRun_ne_8 : countRuns runHand ≠ 8 := by decide

/-- Claim C4, amended: `count_runs` on 3♥ 3♦ 4♣ 5♠ returns exactly 6 (the
double run 3-4-5 × 2; the embedded pair is scored by `count_pairs`). -/
theorem countRuns_pairRun_eq_6 : countRuns runHand = 6 := by decide

/-- Claim C2, code bug: when the go of player 1 closes the sub-round at
pegging total 31, `handle_go` still adds one point to `last_played_player`
(the tuple slot it reads as `points_awarded` is the constant Python `True`),
although the total, sequence, pass set and bonus flag are reset as claimed. -/
theorem go_at_31_still_awards_point :
    goGame31.peggingTotal = 31 ∧
    (goGame31.go 1).1.scorer = some 0 ∧
    (handleGoScore goGame31 1).2.players.map Player.score = [11, 5] ∧
    (goGame31.go 1).2.peggingTotal = 0 ∧
    (goGame31.go 1).2.peggingCards = [] ∧
    (goGame31.go 1).2.playersPassed = ∅ ∧
    (goGame31.go 1).2.lastCardBonusAwarded = false := by
  decide

/-- Claim C10: before any card has been played in the sub-round
(`last_played_player` is `None`) and with at least one player still holding
cards, `go` only records the caller in the pass set: no sub-round end, no
reset, and `handle_go` changes no player's score. -/
theorem go_noLastPlayed_records_pass_only (g : Game) (pid : Nat)
    (hlp : g.lastPlayedPlayer = none) (hact : g.activePlayers ≠ ∅) :
    g.go pid = (⟨none, false, false, false⟩,
      { g with playersPassed := insert pid g.playersPassed }) ∧
    (handleGoScore g pid).2.players = g.players := by
  have h1 : g.go pid = (⟨none, false, false, false⟩,
      { g with playersPassed := insert pid g.playersPassed }) := by
    unfold Game.go
    rw [if_neg hact, if_pos hlp]
  refine ⟨h1, ?_⟩
  unfold handleGoScore
  rw [h1]

/-- Claim C10, witness: player 0 holds the only card, nobody has played,
and player 0's own go — which makes every card-holding player passed —
still only records the pass. -/
theorem go_noLastPlayed_witness :
    passGame.go 0 = (⟨none, false, false, false⟩,
      { passGame with playersPassed := insert 0 passGame.playersPassed }) ∧
    (handleGoScore passGame 0).2.players = passGame.players :=
  go_noLastPlayed_records_pass_only passGame 0 (by decide) (by decide)

/-- Claim C8, counterexample: with player 0's discard already recorded, a
second discard from player 0 is acknowledged exactly like the first and
silently replaces the stored indices — it is not rejected. -/
theorem second_discard_replaces :
    (handleDiscard discardState 0 [2, 3]).1.discards = [(0, [2, 3])] ∧
    (handleDiscard discardState 0 [2, 3]).1.discards ≠ discardState.discards ∧
    (handleDiscard discardState 0 [2, 3]).2 = [SMessage.ack 0 "Discard received"] := by
  decide

/-- Claim C8, amended: a repeat discard arriving before every connection
has discarded is accepted with the normal acknowledgement and overwrites
the stored entry; the game itself (hands, crib, everything) is untouched. -/
theorem handleDiscard_replaces (s : SState) (pid : Nat) (v : List Nat)
    (hmem : s.discards.any (fun e => e.1 == pid) = true)
    (hlen : s.discards.length ≠ s.connections.length) :
    handleDiscard s pid v =
      ({ s with discards :=
          s.discards.map (fun e => if e.1 = pid then (pid, v) else e) },
       [SMessage.ack pid "Discard received"]) := by
  unfold handleDiscard dictInsert
  rw [if_pos hmem]
  rw [if_neg (by simpa using hlen)]

/-- Claim C8, witness: the amended behaviour at the concrete fixture. -/
theorem handleDiscard_replaces_witness :
    handleDiscard discardState 0 [2, 3] =
      ({ discardState with discards :=
          discardState.discards.map (fun e => if e.1 = 0 then (0, [2, 3]) else e) },
       [SMessage.ack 0 "Discard received"]) :=
  handleDiscard_replaces discardState 0 [2, 3] (by decide) (by decide)

/-- Claim C7, code bug: `start_round` draws the starter right after dealing,
while the discard dictionary is still empty — before any discard has been
collected — and already sends it inside every deal message; the
starter_revealed broadcast after the last discard merely repeats it. -/
theorem startRound_starter_before_discards (s : SState) (dealer : Option Nat)
    (freshDeck : List Card)
    (hne : ((s.game.prepareRound dealer freshDeck).dealCards).deck ≠ []) :
    ∃ c, (startRound s dealer freshDeck).1.game.starter = some c ∧
      (startRound s dealer freshDeck).1.discards = [] ∧
      (startRound s dealer freshDeck).2 = s.connections.map
        (fun p => SMessage.deal p
          (handOf (startRound s dealer freshDeck).1.game p) (some c)) := by
  refine ⟨((s.game.prepareRound dealer freshDeck).dealCards).deck.getLast hne, ?_, rfl, ?_⟩
  · show (((s.game.prepareRound dealer freshDeck).dealCards).setStarter).starter = _
    unfold Game.setStarter
    rw [List.getLast?_eq_getLast _ hne]
  · show s.connections.map _ = s.connections.map _
    have hst : (((s.game.prepareRound dealer freshDeck).dealCards).setStarter).starter
        = some (((s.game.prepareRound dealer freshDeck).dealCards).deck.getLast hne) := by
      unfold Game.setStarter
      rw [List.getLast?_eq_getLast _ hne]
    rw [hst]
    rfl

/-- Claim C7, witness: starting a round on the concrete server state with a
full deck sets (and deals out) a starter while no discard is recorded. -/
theorem startRound_starter_witness :
    ∃ c, (startRound discardState none fullDeck).1.game.starter = some c ∧
      (startRound discardState none fullDeck).1.discards = [] ∧
      (startRound discardState none fullDeck).2 = discardState.connections.map
        (fun p => SMessage.deal p
          (handOf (startRound discardState none fullDeck).1.game p) (some c)) :=
  startRound_starter_before_discards discardState none fullDeck (by decide)

/-- Every member is bounded by the `foldr max 0` of its list. -/
theorem le_foldr_max (l : List Nat) (a : Nat) (h : a ∈ l) : a ≤ l.foldr max 0 := by
  induction l with
  | nil => cases h
  | cons b t ih =>
    rcases List.mem_cons.mp h with rfl | ht
    · exact Nat.le_max_left _ _
    · exact Nat.le_trans (ih ht) (Nat.le_max_right _ _)

/-- `foldr max 0` is bounded by any common bound of the list. -/
theorem foldr_max_le (l : List Nat) (b : Nat) (h : ∀ a ∈ l, a ≤ b) :
    l.foldr max 0 ≤ b := by
  induction l with
  | nil => exact Nat.zero_le b
  | cons c t ih =>
    exact Nat.max_le.mpr ⟨h c (List.mem_cons_self c t),
      ih (fun a ha => h a (List.mem_cons_of_mem c ha))⟩

/-- `foldr max 0` of a non-empty list is one of its members. -/
theorem foldr_max_mem (l : List Nat) (h : l ≠ []) : l.foldr max 0 ∈ l := by
  induction l with
  | nil => exact absurd rfl h
  | cons a t ih =>
    cases t with
    | nil => simp
    | cons b u =>
      rcases Nat.le_total a ((b :: u).foldr max 0) with hle | hle
      · rw [List.foldr_cons, Nat.max_eq_right hle]
        exact List.mem_cons_of_mem a (ih (by simp))
      · rw [List.foldr_cons, Nat.max_eq_left hle]
        exact List.mem_cons_self a _

/-- Re-basing a `foldr max`. -/
theorem foldr_max_init (l : List Nat) (b : Nat) :
    l.foldr max b = max b (l.foldr max 0) := by
  induction l with
  | nil => simp
  | cons a t ih => rw [List.foldr_cons, ih, List.foldr_cons, max_left_comm]

/-- Claim C1, amended: `get_winner` (given some player at 121 or more)
returns a top-scoring finalist; it returns the dealer exactly when the
dealer is itself a top-scoring finalist — dealer priority applies only
among the highest scorers at or above 121 — and otherwise the smallest id
among the top-scoring finalists. -/
theorem getWinner_amended (players : List Player) (dealer : Nat)
    (hex : ∃ p ∈ players, 121 ≤ p.score) :
    ∃ w, getWinner players dealer = some w ∧ isTopFinalistId players w ∧
      (isTopFinalistId players dealer → w = dealer) ∧
      (¬ isTopFinalistId players dealer →
        ∀ u, isTopFinalistId players u → w ≤ u) := by
  classical
  obtain ⟨p0, hp0, hs0⟩ := hex
  simp only [getWinner]
  set finalists := players.filter (fun p => decide (121 ≤ p.score)) with hfin
  have hfinmem : ∀ p, p ∈ finalists ↔ p ∈ players ∧ 121 ≤ p.score := by
    intro p; rw [hfin, List.mem_filter]; simp
  have hp0f : p0 ∈ finalists := (hfinmem p0).mpr ⟨hp0, hs0⟩
  have hfne : finalists ≠ [] := List.ne_nil_of_mem hp0f
  rw [if_neg (by simpa [List.isEmpty_iff] using hfne)]
  set maxScore := (finalists.map Player.score).foldr max 0 with hmax
  have hle : ∀ p ∈ finalists, p.score ≤ maxScore := fun p hp =>
    le_foldr_max _ _ (List.mem_map_of_mem _ hp)
  have hattain : ∃ p ∈ finalists, p.score = maxScore := by
    have hmem := foldr_max_mem (finalists.map Player.score) (by simpa using hfne)
    obtain ⟨p, hp, he⟩ := List.mem_map.mp hmem
    exact ⟨p, hp, he⟩
  set leaders := (finalists.filter (fun p => decide (p.score = maxScore))).map Player.id
    with hld
  have hkey : ∀ i, i ∈ leaders ↔ isTopFinalistId players i := by
    intro i
    constructor
    · intro hi
      obtain ⟨p, hpmem, hpi⟩ := List.mem_map.mp hi
      obtain ⟨hpf, hps⟩ := List.mem_filter.mp hpmem
      have hps' : p.score = maxScore := by simpa using hps
      obtain ⟨hpp, hp121⟩ := (hfinmem p).mp hpf
      exact ⟨p, hpp, hpi, hp121, fun q hq hq121 =>
        hps' ▸ hle q ((hfinmem q).mpr ⟨hq, hq121⟩)⟩
    · rintro ⟨p, hpp, hpi, hp121, hdom⟩
      have hpf : p ∈ finalists := (hfinmem p).mpr ⟨hpp, hp121⟩
      have hps : p.score = maxScore := by
        obtain ⟨q, hqf, hqs⟩ := hattain
        have hq' := (hfinmem q).mp hqf
        exact Nat.le_antisymm (hle p hpf) (hqs ▸ hdom q hq'.1 hq'.2)
      exact List.mem_map.mpr ⟨p, List.mem_filter.mpr ⟨hpf, by simpa using hps⟩, hpi⟩
  have hlne : leaders ≠ [] := by
    obtain ⟨p, hpf, hps⟩ := hattain
    exact List.ne_nil_of_mem
      (List.mem_map.mpr ⟨p, List.mem_filter.mpr ⟨hpf, by simpa using hps⟩, rfl⟩)
  by_cases hd : dealer ∈ leaders
  · rw [if_pos hd]
    exact ⟨dealer, rfl, (hkey dealer).mp hd, fun _ => rfl,
      fun hnd => absurd ((hkey dealer).mp hd) hnd⟩
  · rw [if_neg hd]
    have hsp : List.Perm (leaders.insertionSort (· ≤ ·)) leaders :=
      List.perm_insertionSort _ _
    have hsort : List.Sorted (· ≤ ·) (leaders.insertionSort (· ≤ ·)) :=
      List.sorted_insertionSort _ _
    cases hs : leaders.insertionSort (· ≤ ·) with
    | nil => exact absurd (List.nil_perm.mp (hs ▸ hsp)) hlne
    | cons w rest =>
      rw [hs] at hsp hsort
      have hwmem : w ∈ leaders := hsp.subset (List.mem_cons_self w rest)
      have hwle : ∀ u ∈ leaders, w ≤ u := by
        intro u hu
        rcases List.mem_cons.mp (hsp.mem_iff.mpr hu) with rfl | hru
        · exact Nat.le_refl u
        · exact (List.sorted_cons.mp hsort).1 u hru
      refine ⟨w, rfl, (hkey w).mp hwmem, ?_, ?_⟩
      · intro htop; exact absurd ((hkey dealer).mpr htop) hd
      · intro _ u hu; exact hwle u ((hkey u).mpr hu)

/-- Claim C1, witness: the amended rule at scores [125, 121] with dealer 1. -/
theorem getWinner_amended_witness :
    ∃ w, getWinner [⟨0, [], 125⟩, ⟨1, [], 121⟩] 1 = some w ∧
      isTopFinalistId [⟨0, [], 125⟩, ⟨1, [], 121⟩] w ∧
      (isTopFinalistId [⟨0, [], 125⟩, ⟨1, [], 121⟩] 1 → w = 1) ∧
      (¬ isTopFinalistId [⟨0, [], 125⟩, ⟨1, [], 121⟩] 1 →
        ∀ u, isTopFinalistId [⟨0, [], 125⟩, ⟨1, [], 121⟩] u → w ≤ u) :=
  getWinner_amended [⟨0, [], 125⟩, ⟨1, [], 121⟩] 1
    ⟨⟨0, [], 125⟩, by simp, by norm_num⟩

/-- `range'` with step 1 is sorted. -/
theorem sorted_le_range' (s n : Nat) : List.Sorted (· ≤ ·) (List.range' s n) := by
  induction n generalizing s with
  | zero => exact List.sorted_nil
  | succ n ih =>
    rw [List.range'_succ]
    refine List.sorted_cons.mpr ⟨?_, ih (s + 1)⟩
    intro b hb
    have := List.mem_range'_1.mp hb
    omega

/-- The backwards streak loop equals the spec's trailing streak count. -/
theorem trailing_eq (cards : List Card) (h : cards ≠ []) :
    trailingRankCount cards = specTrailingStreak cards := by
  obtain ⟨l, a, rfl⟩ : ∃ l a, cards = l ++ [a] :=
    ⟨cards.dropLast, cards.getLast h, (List.dropLast_append_getLast h).symm⟩
  unfold trailingRankCount specTrailingStreak
  rw [List.getLast?_concat, List.dropLast_concat, List.reverse_concat']
  simp [List.takeWhile_cons]
  omega

/-- A singleton sequence has trailing streak 1. -/
theorem trailing_single (cards : List Card) (h : cards.length = 1) :
    trailingRankCount cards = 1 := by
  obtain ⟨a, rfl⟩ := List.length_eq_one.mp h
  rfl

/-- The code's window acceptance test agrees with the spec's "distinct
values forming a contiguous integer range" reading, for lengths ≥ 3. -/
theorem windowOk_eq_spec (cards : List Card) (L : Nat) (h3 : 3 ≤ L) :
    windowOk cards L = specWindowGood cards L := by
  have hperm : List.Perm
      (((cards.drop (cards.length - L)).map (fun c => c.rank.toNum)).insertionSort (· ≤ ·))
      ((cards.drop (cards.length - L)).map (fun c => c.rank.toNum)) :=
    List.perm_insertionSort _ _
  have hsorted : List.Sorted (· ≤ ·)
      (((cards.drop (cards.length - L)).map (fun c => c.rank.toNum)).insertionSort (· ≤ ·)) :=
    List.sorted_insertionSort _ _
  have fwd : windowOk cards L = true → specWindowGood cards L = true := by
    intro hw
    simp only [windowOk] at hw
    split at hw
    · exact absurd hw (by simp)
    · rename_i hdl
      split at hw
      · exact absurd hw (by simp)
      · rename_i n0 rest hcons
        have hrange : (((cards.drop (cards.length - L)).map
            (fun c => c.rank.toNum)).insertionSort (· ≤ ·)) = List.range' n0 L :=
          of_decide_eq_true hw
        have hn0mem : n0 ∈ ((cards.drop (cards.length - L)).map (fun c => c.rank.toNum)) :=
          hperm.subset (hcons ▸ List.mem_cons_self n0 rest)
        simp only [specWindowGood]
        refine List.any_eq_true.mpr ⟨n0, hn0mem, decide_eq_true ?_⟩
        exact (hperm.symm).trans (hrange ▸ List.Perm.refl _)
  have bwd : specWindowGood cards L = true → windowOk cards L = true := by
    intro hs
    simp only [specWindowGood] at hs
    obtain ⟨a, hamem, hp⟩ := List.any_eq_true.mp hs
    have hperm2 : List.Perm ((cards.drop (cards.length - L)).map (fun c => c.rank.toNum))
        (List.range' a L) := of_decide_eq_true hp
    have heq : (((cards.drop (cards.length - L)).map
        (fun c => c.rank.toNum)).insertionSort (· ≤ ·)) = List.range' a L :=
      List.eq_of_perm_of_sorted (hperm.trans hperm2) hsorted (sorted_le_range' a L)
    have hnodup : (((cards.drop (cards.length - L)).map
        (fun c => c.rank.toNum)).insertionSort (· ≤ ·)).Nodup := by
      rw [heq]; exact List.nodup_range' _ _
    have hdl : (((cards.drop (cards.length - L)).map
        (fun c => c.rank.toNum)).insertionSort (· ≤ ·)).dedup.length = L := by
      rw [List.dedup_eq_self.mpr hnodup, heq, List.length_range']
    obtain ⟨k, rfl⟩ : ∃ k, L = k + 3 := ⟨L - 3, by omega⟩
    simp only [windowOk]
    rw [if_neg (by rw [hdl]; exact fun hne => hne rfl)]
    rw [heq, List.range'_succ]
    simp [List.range'_succ]
  cases hw : windowOk cards L with
  | true => exact (fwd hw).symm
  | false =>
    cases hs : specWindowGood cards L with
    | true => exact absurd (hw.symm.trans (bwd hs)) (by simp)
    | false => rfl

/-- The descending first-match scan equals the maximum accepted length. -/
theorem runScan_eq_max (cards : List Card) : ∀ n, runScan cards n =
    ((List.range (n + 1)).filter
      (fun L => decide (3 ≤ L) && windowOk cards L)).foldr max 0 := by
  intro n
  induction n using Nat.strong_induction_on with
  | _ n ih =>
    match n with
    | 0 => rfl
    | 1 => rfl
    | 2 => rfl
    | (m + 3) =>
      rw [List.range_succ, List.filter_append]
      cases hw : windowOk cards (m + 3) with
      | true =>
        have hfil : List.filter (fun L => decide (3 ≤ L) && windowOk cards L) [m + 3]
            = [m + 3] := by simp [hw]
        rw [hfil, List.foldr_append]
        have h1 : List.foldr max 0 [m + 3] = m + 3 := by simp
        rw [h1, foldr_max_init]
        have hb : ((List.range (m + 3)).filter
            (fun L => decide (3 ≤ L) && windowOk cards L)).foldr max 0 ≤ m + 3 := by
          refine foldr_max_le _ _ (fun a ha => ?_)
          have := List.mem_range.mp (List.mem_of_mem_filter ha)
          omega
        rw [Nat.max_eq_left hb]
        simp [runScan, hw]
      | false =>
        have hfil : List.filter (fun L => decide (3 ≤ L) && windowOk cards L) [m + 3]
            = [] := by simp [hw]
        rw [hfil, List.append_nil]
        have := ih (m + 2) (by omega)
        simp only [runScan, hw]
        simpa using this

/-- The spec's "longest qualifying window" equals the code's scan. -/
theorem specRun_eq_runScan (cards : List Card) :
    specRunPoints cards = runScan cards cards.length := by
  rw [runScan_eq_max]
  unfold specRunPoints
  congr 1
  refine List.filter_congr (fun L _ => ?_)
  by_cases h3 : 3 ≤ L
  · rw [windowOk_eq_spec cards L h3]
  · rw [decide_eq_false h3]
    simp

/-- Claim C5: for every non-empty pegging sequence and total, the code's
`calculate_pegging_points` computes exactly the spec's formula: +2 on a
total of 15 or 31, `2·(m−1)` for an `m ≥ 2` trailing same-rank streak, plus
the length of the longest suffix window of distinct values forming a
contiguous integer range (scanned longest-first, one match), with no
duplicate-multiplicity multiplier on pegging runs. -/
theorem calculatePeggingPoints_eq_spec (cards : List Card) (total : Nat)
    (h : cards ≠ []) :
    calculatePeggingPoints cards total = specPeggingScore cards total := by
  unfold calculatePeggingPoints specPeggingScore
  rw [specRun_eq_runScan, ← trailing_eq cards h]
  by_cases hl : 2 ≤ cards.length
  · rw [if_pos hl]
  · rw [if_neg hl]
    have h1 : cards.length = 1 := by
      have := List.length_pos.mpr h
      omega
    rw [trailing_single cards h1]
    simp

/-- Claim C5, witness: code and spec scorers agree on the concrete
sequence 5♥ 5♦ 5♣ J♠ 5♠ at total 15. -/
theorem calculatePeggingPoints_eq_spec_witness :
    calculatePeggingPoints maxHand 15 = specPeggingScore maxHand 15 :=
  calculatePeggingPoints_eq_spec maxHand 15 (by decide)

/-- With every hand empty there is no active player. -/
theorem activePlayers_empty_of_allEmpty (g : Game) (h : g.allHandsEmpty = true) :
    g.activePlayers = ∅ := by
  have hall := List.all_eq_true.mp h
  unfold Game.activePlayers
  rw [List.toFinset_eq_empty_iff, List.filter_eq_nil_iff]
  intro i hi
  have hlt := List.mem_range.mp hi
  have hget : g.players.getD i default = g.players.get ⟨i, hlt⟩ := by
    rw [List.getD_eq_getElem?_getD, List.getElem?_eq_getElem hlt]
    rfl
  have hie := hall _ (List.get_mem g.players i hlt)
  rw [hget, hie]
  decide

/-- A state with hands dealt: player 0 holds one five, player 1 is empty,
total 10, flag unset — the next play is the round's final card. -/
def finalGame : Game :=
  ⟨2, [⟨0, [⟨Suit.H, Rank.n5⟩], 0⟩, ⟨1, [], 0⟩], [], [], none, 10,
   [⟨Suit.D, Rank.n4⟩, ⟨Suit.C, Rank.n6⟩], some 1, ∅, false, [], 0⟩

/-- Claim C6: a play that empties every hand earns the +1 last-card bonus
exactly when the resulting total is not 31 and the bonus flag is unset, and
the flag is then set; afterwards (all hands empty) a `go` names no scorer
and leaves every score unchanged, and no further card can be played — so
the final player receives exactly one +1, never a second. -/
theorem lastCardBonus_exactly_once :
    (∀ (g : Game) (pid idx : Nat) (card : Card) (pts : Nat) (g' : Game),
      g.playCard pid idx = some (card, pts, g') →
        pts = calculatePeggingPoints g'.peggingCards g'.peggingTotal
          + (if g'.allHandsEmpty = true ∧ g'.peggingTotal ≠ 31 ∧
                g.lastCardBonusAwarded = false then 1 else 0)
        ∧ g'.lastCardBonusAwarded =
            (g.lastCardBonusAwarded || (g'.allHandsEmpty && (g'.peggingTotal != 31))))
    ∧ (∀ (g : Game) (q : Nat), g.allHandsEmpty = true →
        ((g.go q).1.scorer = none ∧ (handleGoScore g q).2.players = g.players))
    ∧ (∀ (g : Game) (q idx : Nat), g.allHandsEmpty = true →
        g.playCard q idx = none) := by
  refine ⟨?_, ?_, ?_⟩
  · intro g pid idx card pts g' h
    unfold Game.playCard at h
    cases hp : g.players.get? pid with
    | none => simp only [hp] at h; exact Option.noConfusion h
    | some pl =>
      simp only [hp] at h
      cases hc : pl.hand.get? idx with
      | none => simp only [hc] at h; exact Option.noConfusion h
      | some c =>
        simp only [hc] at h
        injection h with h2
        have hcard : c = card := congrArg Prod.fst h2
        have hpts := congrArg (fun t : Card × Nat × Game => t.2.1) h2
        have hg := congrArg (fun t : Card × Nat × Game => t.2.2) h2
        simp only at hpts hg
        subst hcard
        subst hpts
        subst hg
        constructor
        · have hB : ∀ b : Bool, ∀ p : Prop, ∀ hD : Decidable p, (b = true ↔ p) →
              ∀ x : Nat, x + (if b then (1 : Nat) else 0) = x + (if p then 1 else 0) := by
            intro b p hD hiff x
            cases b with
            | true => rw [if_pos (hiff.mp rfl)]; simp
            | false =>
              rw [if_neg (fun hpp => Bool.noConfusion (hiff.mpr hpp))]
              simp
          refine hB _ _ _ ?_ _
          unfold Game.allHandsEmpty
          simp [and_assoc, Bool.and_eq_true, bne_iff_ne, Bool.not_eq_true']
        · have flagBool : ∀ was tneq old : Bool,
              (if (was && tneq && !old) = true then true else old)
                = (old || (was && tneq)) := by
            intro was tneq old
            cases was <;> cases tneq <;> cases old <;> rfl
          exact flagBool _ _ _
  · intro g q hemp
    have hact := activePlayers_empty_of_allEmpty g hemp
    have hgo : g.go q = (⟨none, true, true, false⟩, { g with playersPassed := ∅ }) := by
      unfold Game.go
      rw [if_pos hact]
    refine ⟨by rw [hgo], ?_⟩
    unfold handleGoScore
    rw [hgo]
  · intro g q idx hemp
    unfold Game.playCard
    cases hp : g.players.get? q with
    | none => simp only [hp]
    | some pl =>
      have hmem : pl ∈ g.players := List.get?_mem hp
      have hpl : pl.hand.isEmpty = true := List.all_eq_true.mp hemp pl hmem
      have hnone : pl.hand.get? idx = none := by
        rw [List.isEmpty_iff.mp hpl]
        rfl
      simp only [hp, hnone]

/-- Claim C6, witness: player 0's five empties both hands at total 15, the
pegging base is 2 (fifteen) and exactly one bonus point is added with the
flag set; in the emptied fixture `idleGame` a go scores nobody and a play
is impossible. -/
theorem lastCardBonus_exactly_once_witness :
    (∃ pts g', finalGame.playCard 0 0 = some (⟨Suit.H, Rank.n5⟩, pts, g') ∧
      pts = calculatePeggingPoints g'.peggingCards g'.peggingTotal
        + (if g'.allHandsEmpty = true ∧ g'.peggingTotal ≠ 31 ∧
              finalGame.lastCardBonusAwarded = false then 1 else 0)
      ∧ g'.lastCardBonusAwarded =
          (finalGame.lastCardBonusAwarded ||
            (g'.allHandsEmpty && (g'.peggingTotal != 31))))
    ∧ ((idleGame.go 0).1.scorer = none ∧
        (handleGoScore idleGame 0).2.players = idleGame.players)
    ∧ idleGame.playCard 0 0 = none := by
  refine ⟨⟨_, _, rfl, lastCardBonus_exactly_once.1 finalGame 0 0 _ _ _ rfl⟩,
    lastCardBonus_exactly_once.2.1 idleGame 0 (by decide),
    lastCardBonus_exactly_once.2.2 idleGame 0 0 (by decide)⟩

/-- Replacing one player changes the hand-size sum by the hand difference. -/
theorem handSum_set (players : List Player) (pid : Nat) (pl pl' : Player)
    (h : players.get? pid = some pl) :
    ((players.set pid pl').map (fun p => p.hand.length)).sum + pl.hand.length
      = (players.map (fun p => p.hand.length)).sum + pl'.hand.length := by
  induction players generalizing pid with
  | nil => exact Option.noConfusion h
  | cons a t ih =>
    cases pid with
    | zero =>
      have ha : a = pl := Option.some.inj h
      subst ha
      simp only [List.set_cons_zero, List.map_cons, List.sum_cons]
      omega
    | succ n =>
      have h' : t.get? n = some pl := h
      simp only [List.set_cons_succ, List.map_cons, List.sum_cons]
      have := ih n h'
      omega

/-- Deleting at strictly descending in-range indices removes exactly one
card per index. -/
theorem eraseIdx_foldl_length : ∀ (idxs : List Nat) (hand : List Card),
    idxs.Pairwise (· > ·) → (∀ i ∈ idxs, i < hand.length) →
    (idxs.foldl (fun h i => h.eraseIdx i) hand).length + idxs.length = hand.length := by
  intro idxs
  induction idxs with
  | nil => intro hand _ _; simp
  | cons i rest ih =>
    intro hand hpw hbd
    rw [List.foldl_cons]
    have hi : i < hand.length := hbd i (List.mem_cons_self i rest)
    have hlen : (hand.eraseIdx i).length + 1 = hand.length :=
      List.length_eraseIdx_add_one hi
    obtain ⟨hgt, hpw'⟩ := List.pairwise_cons.mp hpw
    have hbd' : ∀ j ∈ rest, j < (hand.eraseIdx i).length := by
      intro j hj
      have := hgt j hj
      omega
    have := ih (hand.eraseIdx i) hpw' hbd'
    simp only [List.length_cons]
    omega

/-- `sorted(l, reverse=True)` is a permutation of `l`. -/
theorem sortDescend_perm (l : List Nat) : List.Perm (sortDescend l) l :=
  (List.reverse_perm _).trans (List.perm_insertionSort _ _)

/-- On a duplicate-free list, `sorted(l, reverse=True)` is strictly
descending. -/
theorem sortDescend_sorted (l : List Nat) (hnd : l.Nodup) :
    (sortDescend l).Pairwise (· > ·) := by
  have hs : List.Sorted (· ≤ ·) (l.insertionSort (· ≤ ·)) :=
    List.sorted_insertionSort _ _
  have hge : (sortDescend l).Pairwise (· ≥ ·) := by
    unfold sortDescend
    exact List.pairwise_reverse.mpr hs
  have hnd2 : (sortDescend l).Nodup := (sortDescend_perm l).nodup_iff.mpr hnd
  exact (hge.and hnd2).imp (fun hab => lt_of_le_of_ne hab.1 (Ne.symm hab.2))

/-- One collected discard entry with a seated player and distinct in-range
indices conserves the card sum: the hand shrinks by exactly what the crib
gains. -/
theorem applyDiscardEntry_cardSum (g : Game) (e : Nat × List Nat)
    (hpid : e.1 < g.players.length) (hnd : e.2.Nodup)
    (hbd : ∀ i ∈ e.2, i < (g.players.getD e.1 default).hand.length) :
    (applyDiscardEntry g e).cardSum = g.cardSum := by
  obtain ⟨pid, idxs⟩ := e
  simp only at hpid hnd hbd
  have hget : g.players.get? pid = some (g.players.get ⟨pid, hpid⟩) :=
    List.get?_eq_get hpid
  have hgetD : g.players.getD pid default = g.players.get ⟨pid, hpid⟩ := by
    rw [List.getD_eq_getElem?_getD, List.getElem?_eq_getElem hpid]
    rfl
  rw [hgetD] at hbd
  have hperm := sortDescend_perm idxs
  have hpw := sortDescend_sorted idxs hnd
  have hbd2 : ∀ i ∈ sortDescend idxs, i < (g.players.get ⟨pid, hpid⟩).hand.length :=
    fun i hi => hbd i (hperm.subset hi)
  have hflen := eraseIdx_foldl_length (sortDescend idxs)
    (g.players.get ⟨pid, hpid⟩).hand hpw hbd2
  have hcnt : (sortDescend idxs).length = idxs.length := hperm.length_eq
  have hsum := handSum_set g.players pid (g.players.get ⟨pid, hpid⟩)
    { g.players.get ⟨pid, hpid⟩ with
      hand := (sortDescend idxs).foldl (fun h i => h.eraseIdx i)
        (g.players.get ⟨pid, hpid⟩).hand } hget
  unfold applyDiscardEntry
  simp only [hget]
  unfold Player.discard
  unfold Game.cardSum
  dsimp only
  dsimp only at hsum
  simp only [List.length_append, List.length_map]
  omega

/-- Validity of a discard dictionary against the evolving game state: each
entry names a seated player and distinct indices inside that player's
current hand. -/
inductive ValidDiscards : Game → List (Nat × List Nat) → Prop where
  | nil (g : Game) : ValidDiscards g []
  | cons (g : Game) (e : Nat × List Nat) (es : List (Nat × List Nat))
      (hpid : e.1 < g.players.length) (hnd : e.2.Nodup)
      (hbd : ∀ i ∈ e.2, i < (g.players.getD e.1 default).hand.length)
      (hrest : ValidDiscards (applyDiscardEntry g e) es) : ValidDiscards g (e :: es)

/-- Collecting a valid discard dictionary conserves the card sum. -/
theorem collectDiscards_cardSum (g : Game) (ds : List (Nat × List Nat))
    (h : ValidDiscards g ds) : (g.collectDiscards ds).cardSum = g.cardSum := by
  have hcap : ∀ gg : Game, gg.captureShowHands.cardSum = gg.cardSum := fun _ => rfl
  unfold Game.collectDiscards
  rw [hcap]
  induction h with
  | nil => rfl
  | cons g e es hpid hnd hbd hrest ih =>
    rw [List.foldl_cons, ih, applyDiscardEntry_cardSum g e hpid hnd hbd]

/-- Drawing the starter from a non-empty deck conserves the card sum. -/
theorem setStarter_cardSum (g : Game) (hne : g.deck ≠ []) (hst : g.starter = none) :
    (g.setStarter).cardSum = g.cardSum := by
  unfold Game.setStarter
  rw [List.getLast?_eq_getLast _ hne]
  unfold Game.cardSum
  rw [hst]
  dsimp only
  have h1 : g.deck.dropLast.length = g.deck.length - 1 := List.length_dropLast _
  have h2 : 1 ≤ g.deck.length := List.length_pos.mpr hne
  simp
  omega

/-- The dealing fold moves cards from the deck into hands one player at a
time, conserving hands + deck. -/
theorem dealStep_foldl_sum (per : Nat) (pls : List Player) :
    ∀ (acc : List Player) (deck : List Card), per * pls.length ≤ deck.length →
    ((pls.foldl (dealStep per) (acc, deck)).1.map (fun p => p.hand.length)).sum
        + (pls.foldl (dealStep per) (acc, deck)).2.length
      = (acc.map (fun p => p.hand.length)).sum + deck.length := by
  induction pls with
  | nil => intro acc deck _; simp
  | cons pl rest ih =>
    intro acc deck hle
    rw [List.length_cons, Nat.mul_succ] at hle
    rw [List.foldl_cons]
    have hstep : dealStep per (acc, deck)
        pl = (acc ++ [{ pl with hand := (deck.drop (deck.length - per)).reverse }],
          deck.take (deck.length - per)) := rfl
    rw [hstep]
    have htl : (deck.take (deck.length - per)).length = deck.length - per := by
      rw [List.length_take]
      omega
    have ihh := ih (acc ++ [{ pl with hand := (deck.drop (deck.length - per)).reverse }])
      (deck.take (deck.length - per)) (by rw [htl]; omega)
    rw [ihh, List.map_append, List.sum_append]
    have hdl : ((deck.drop (deck.length - per)).reverse).length = per := by
      rw [List.length_reverse, List.length_drop]
      omega
    have hph : ({ pl with hand := (deck.drop (deck.length - per)).reverse }
        : Player).hand.length = per := hdl
    simp only [List.map_cons, List.map_nil, List.sum_cons, List.sum_nil]
    omega

/-- Dealing fresh hands from a sufficiently large deck onto empty hands
conserves the card sum. -/
theorem dealCards_cardSum (g : Game)
    (hhands : g.players.all (fun p => p.hand.isEmpty) = true)
    (hdeck : (if g.numPlayers = 2 then 6 else 5) * g.players.length ≤ g.deck.length) :
    (g.dealCards).cardSum = g.cardSum := by
  simp only [Game.dealCards, Game.cardSum]
  have h := dealStep_foldl_sum (if g.numPlayers = 2 then 6 else 5) g.players [] g.deck hdeck
  have h0 : (g.players.map (fun p => p.hand.length)).sum = 0 := by
    rw [List.sum_eq_zero]
    intro x hx
    obtain ⟨p, hp, rfl⟩ := List.mem_map.mp hx
    have hie := List.all_eq_true.mp hhands p hp
    simp [List.isEmpty_iff.mp hie]
  simp only [List.map_nil, List.sum_nil, Nat.zero_add] at h
  omega

/-- A successful pegging play removes the played card from the tracked
collections: the card sum drops by exactly one. -/
theorem playCard_cardSum (g : Game) (pid idx : Nat) (card : Card) (pts : Nat)
    (g' : Game) (h : g.playCard pid idx = some (card, pts, g')) :
    g'.cardSum + 1 = g.cardSum := by
  unfold Game.playCard at h
  cases hp : g.players.get? pid with
  | none => simp only [hp] at h; exact Option.noConfusion h
  | some pl =>
    simp only [hp] at h
    cases hc : pl.hand.get? idx with
    | none => simp only [hc] at h; exact Option.noConfusion h
    | some c =>
      simp only [hc] at h
      injection h with h2
      have hg := congrArg (fun t : Card × Nat × Game => t.2.2) h2
      simp only at hg
      subst hg
      have hidx : idx < pl.hand.length := by
        by_contra hno
        rw [List.get?_eq_none.mpr (Nat.le_of_not_lt hno)] at hc
        exact Option.noConfusion hc
      have hlen : (pl.hand.eraseIdx idx).length + 1 = pl.hand.length :=
        List.length_eraseIdx_add_one hidx
      have hsum := handSum_set g.players pid pl
        { pl with hand := pl.hand.eraseIdx idx } hp
      unfold Game.cardSum
      dsimp only
      dsimp only at hsum
      omega

/-- `go` touches no hand, crib, starter or deck: the card sum is unchanged. -/
theorem go_cardSum (g : Game) (pid : Nat) : ((g.go pid).2).cardSum = g.cardSum := by
  simp only [Game.go]
  split_ifs <;> rfl

/-- The round state after dealing, starter draw and both players' discards,
following the server's round flow on the concrete full deck. -/
def pegGame : Game :=
  ((freshGame.dealCards).setStarter).collectDiscards [(0, [0, 1]), (1, [0, 1])]

/-- Claim C9, counterexample: at the reachable state right after the round's
first legal pegging play, the sum `Σ|hand| + |crib| + starter + |deck|` is
51, not 52 — the played card left every tracked collection. -/
theorem cardSum_breaks_at_first_play :
    pegGame.cardSum = 52 ∧ pegGame.canPlayCard 0 0 = true ∧
    (pegGame.playCard 0 0).map (fun r => r.2.2.cardSum) = some 51 ∧
    (pegGame.playCard 0 0).map (fun r => r.2.2.cardSum) ≠ some 52 := by
  decide

/-- Claim C9, amended: the 52-card conservation sum holds through dealing
(fresh deck onto empty hands), the starter draw, and valid discard
collection, but every successful pegging play decreases it by exactly one
(the played card survives only as a display string), and `go` leaves it
unchanged — so after `p` plays the sum is 52 − p. -/
theorem cardSum_amended :
    (∀ g : Game, g.players.all (fun p => p.hand.isEmpty) = true →
      (if g.numPlayers = 2 then 6 else 5) * g.players.length ≤ g.deck.length →
      (g.dealCards).cardSum = g.cardSum)
    ∧ (∀ g : Game, g.deck ≠ [] → g.starter = none →
        (g.setStarter).cardSum = g.cardSum)
    ∧ (∀ (g : Game) (ds : List (Nat × List Nat)), ValidDiscards g ds →
        (g.collectDiscards ds).cardSum = g.cardSum)
    ∧ (∀ (g : Game) (pid idx : Nat) (card : Card) (pts : Nat) (g' : Game),
        g.playCard pid idx = some (card, pts, g') → g'.cardSum + 1 = g.cardSum)
    ∧ (∀ (g : Game) (pid : Nat), ((g.go pid).2).cardSum = g.cardSum) :=
  ⟨dealCards_cardSum, setStarter_cardSum, collectDiscards_cardSum,
   playCard_cardSum, go_cardSum⟩

/-- Claim C9, witness: the conservation ledger along the concrete round. -/
theorem cardSum_amended_witness :
    (freshGame.dealCards).cardSum = freshGame.cardSum
    ∧ ((freshGame.dealCards).setStarter).cardSum = (freshGame.dealCards).cardSum
    ∧ pegGame.cardSum = ((freshGame.dealCards).setStarter).cardSum
    ∧ (∃ card pts g', pegGame.playCard 0 0 = some (card, pts, g') ∧
        g'.cardSum + 1 = pegGame.cardSum)
    ∧ ((pegGame.go 0).2).cardSum = pegGame.cardSum := by
  refine ⟨cardSum_amended.1 freshGame (by decide) (by decide),
    cardSum_amended.2.1 _ (by decide) (by decide),
    cardSum_amended.2.2.1 _ _ ?_,
    ⟨_, _, _, rfl, cardSum_amended.2.2.2.1 _ 0 0 _ _ _ rfl⟩,
    cardSum_amended.2.2.2.2 _ 0⟩
  exact ValidDiscards.cons _ _ _ (by decide) (by decide) (by decide)
    (ValidDiscards.cons _ _ _ (by decide) (by decide) (by decide)
      (ValidDiscards.nil _))

end Cribbage
